import Mathlib

/-!
Verification of `src/utils/create_dependency_mapping.py`.

Strings are modelled as `List Char` (`Str`).  Python functions that can raise
an exception are modelled as `Option`-valued functions, with `none` standing
for the raised exception.  The AST parser (`ast.parse` + `ast.walk`) is an
external collaborator and is modelled as a function from a file path to the
list of import statements occurring in the file.
-/

abbrev Str := List Char

/-- The tuple `FILE_TYPE_PREFIXES` from the source, in order. -/
def FILE_TYPE_PREFIXES : List Str :=
  ["modular_".toList, "modeling_".toList, "configuration_".toList,
   "tokenization_".toList, "processing_".toList, "image_processing_".toList,
   "feature_extractor_".toList]

def dotPy : Str := ".py".toList
def modularSep : Str := "modular_".toList
def imageProcessingPrefix : Str := "image_processing_".toList
def fastSuffix : Str := "_fast".toList

/-- The three preprocessing steps of `get_model_name_from_filename`:
strip a trailing `.py` extension, take `os.path.basename` (the part after the
last `/`), then take the last `.`-separated segment. -/
def canonToken (filename : Str) : Str :=
  let m1 := if dotPy.isSuffixOf filename then filename.take (filename.length - 3) else filename
  let m2 := (m1.reverse.takeWhile (fun c => c != '/')).reverse
  (m2.reverse.takeWhile (fun c => c != '.')).reverse

/-- Python `s.replace(old, "", 1)`: remove the first occurrence of `old`. -/
def replaceFirst (p : Str) : Str → Str
  | [] => []
  | c :: rest =>
    if p.isPrefixOf (c :: rest) then (c :: rest).drop p.length
    else c :: replaceFirst p rest

/-- `get_model_name_from_filename` from the source.  `none` models the
`ValueError` raised when no recognized prefix matches. -/
def get_model_name_from_filename (filename : Str) : Option Str :=
  let modified_filename := canonToken filename
  match FILE_TYPE_PREFIXES.find? (fun p => p.isPrefixOf modified_filename) with
  | none => none
  | some file_prefix =>
    let model_name := replaceFirst file_prefix modified_filename
    let model_name :=
      if decide ( file_prefix = imageProcessingPrefix) && fastSuffix.isSuffixOf model_name
      then model_name.take (model_name.length - 5) else model_name
    some model_name

/-- Python `s.replace(".py", "")`: remove every occurrence of `".py"`,
scanning left to right. -/
def removeDotPy : Str → Str
  | [] => []
  | [c] => [c]
  | [c1, c2] => [c1, c2]
  | c1 :: c2 :: c3 :: rest =>
    if c1 = '.' ∧ c2 = 'p' ∧ c3 = 'y' then removeDotPy rest
    else c1 :: removeDotPy (c2 :: c3 :: rest)

/-- The part of a list after the last occurrence of `sep`; `none` when `sep`
does not occur.  This models Python `s.rsplit(sep, 1)[1]`, with `none`
standing for the `IndexError` when `sep` is absent. -/
def afterLast (sep : Str) : Str → Option Str
  | [] => none
  | c :: rest =>
    match afterLast sep rest with
    | some r => some r
    | none =>
      if sep.isPrefixOf (c :: rest) then some ((c :: rest).drop sep.length) else none

/-- The node-name derivation used inside `topological_sort`:
`node.rsplit("modular_", 1)[1].replace(".py", "")`. -/
def nodeKeyName (node : Str) : Option Str :=
  (afterLast modularSep node).map removeDotPy

/-! ## Import extraction and the dependency map -/

/-- An import-style AST node, as produced by walking the parsed tree:
`ast.Import` (plain `import X`) or `ast.ImportFrom` (`from M import Y`,
where `M` is `none` for a purely relative `from . import Y`). -/
inductive PyStmt where
  | imp : Str → PyStmt
  | impFrom : Option Str → PyStmt
deriving DecidableEq

def modelingMarker : Str := ".modeling_".toList
def transformersModelsMarker : Str := "transformers.models".toList

/-- Bool-valued substring test (`pat in s` in Python). -/
def isInfixL (p : Str) : Str → Bool
  | [] => p.isPrefixOf []
  | c :: rest => p.isPrefixOf (c :: rest) || isInfixL p rest

/-- Python `set.add`: keep the list duplicate-free, appending new elements. -/
def insertSet (m : Str) (s : List Str) : List Str :=
  if m ∈ s then s else s ++ [m]

/-- The loop body of `extract_classes_and_imports`: `module` is
`node.module if isinstance(node, ast.ImportFrom) else None`, and the module
is added when it is truthy and contains one of the two marker substrings. -/
def extractStep (imports : List Str) (node : PyStmt) : List Str :=
  match node with
  | .imp _ => imports
  | .impFrom module =>
    match module with
    | none => imports
    | some m =>
      if decide (m ≠ []) && (isInfixL modelingMarker m || isInfixL transformersModelsMarker m)
      then insertSet m imports else imports

/-- `extract_classes_and_imports` from the source, applied to the import
nodes found in the parsed tree (opening and parsing the file is the external
parser collaborator).  Keeps the non-empty `ImportFrom` module paths that
contain `".modeling_"` or `"transformers.models"` as a substring. -/
def extract_classes_and_imports (tree : List PyStmt) : List Str :=
  tree.foldl extractStep []

/-- One `dependencies[file_path].add(module)` on the defaultdict: update the
entry in place if the key exists, otherwise append a fresh entry. -/
def addDep (f m : Str) : List (Str × List Str) → List (Str × List Str)
  | [] => [(f, [m])]
  | (f', ms) :: rest =>
    if f = f' then (f', insertSet m ms) :: rest else (f', ms) :: addDep f m rest

/-- One outer-loop iteration of `map_dependencies`: extract the imports of
one file and add each to the defaultdict entry of that file. -/
def mapDepStep (parse : Str → List PyStmt) (dependencies : List (Str × List Str))
    (file_path : Str) : List (Str × List Str) :=
  (extract_classes_and_imports (parse file_path)).foldl
    (fun acc module => addDep file_path module acc) dependencies

/-- `map_dependencies` from the source.  `parse` is the external parser
(file path to import nodes).  Note that a file whose extracted import set is
empty never touches the defaultdict, hence never becomes a key. -/
def map_dependencies (parse : Str → List PyStmt) (py_files : List Str) :
    List (Str × List Str) :=
  py_files.foldl (mapDepStep parse) []

/-! ## Graph construction and the peel loop -/

/-- All-or-nothing `Option`-valued map (a failing element models the Python
exception aborting the whole comprehension). -/
def mapMOpt (f : α → Option β) : List α → Option (List β)
  | [] => some []
  | a :: l =>
    match f a, mapMOpt f l with
    | some b, some r => some (b :: r)
    | _, _ => none

/-- Python `dict` assignment `d[k] = v`: overwrite in place, append if new. -/
def dinsert [DecidableEq α] (k : α) (v : β) : List (α × β) → List (α × β)
  | [] => [(k, v)]
  | (k', v') :: rest => if k = k' then (k, v) :: rest else (k', v') :: dinsert k v rest

/-- Python `d[k]` lookup on an association list. -/
def alookup [DecidableEq α] (k : α) : List (α × β) → Option β
  | [] => none
  | (k', v) :: rest => if k = k' then some v else alookup k rest

/-- The graph-building phase of `topological_sort`: node set, filtered graph
(`dep in nodes and dep != node_name`) and the name-to-file mapping.  `none`
models the `IndexError`/`ValueError` raised when a key lacks `"modular_"` or a
dependency resolves to no recognized prefix. -/
def buildGraphAux (nodes : List Str) :
    List (Str × List Str) → List (Str × List Str) → List (Str × Str) →
    Option (List (Str × List Str) × List (Str × Str))
  | [], graph, name_mapping => some (graph, name_mapping)
  | (node, deps) :: rest, graph, name_mapping =>
    match nodeKeyName node, mapMOpt get_model_name_from_filename deps with
    | some node_name, some dep_names =>
      let filtered := dep_names.filter (fun d => decide (d ∈ nodes) && decide (d ≠ node_name))
      buildGraphAux nodes rest (dinsert node_name filtered graph)
        (dinsert node_name node name_mapping)
    | _, _ => none

def buildGraph (dependencies : List (Str × List Str)) :
    Option (List (Str × List Str) × List (Str × Str)) :=
  match mapMOpt (fun p => nodeKeyName p.1) dependencies with
  | none => none
  | some nodes => buildGraphAux nodes dependencies [] []

abbrev Graph := List (Str × List Str)

def keysOf (g : List (Str × β)) : List Str := g.map Prod.fst

/-- The nodes with an empty remaining-dependency set. -/
def leaves (g : Graph) : List Str :=
  (g.filter (fun p => p.2.isEmpty)).map Prod.fst

/-- One iteration of the peel loop: drop the leaves as keys and remove them
from every remaining dependency set. -/
def peelStep (g : Graph) : Graph :=
  let L := leaves g
  (g.filter (fun p => !decide (p.1 ∈ L))).map
    (fun p => (p.1, p.2.filter (fun d => !decide (d ∈ L))))

/-- The `while len(graph) > 0` loop, run for at most `fuel` iterations; the
returned graph is what remains (nonempty when the loop would still be
running). -/
def peelLoop : Nat → Graph → List Str × Graph
  | 0, g => ([], g)
  | fuel + 1, g =>
    if g.isEmpty then ([], g)
    else
      let r := peelLoop fuel (peelStep g)
      (leaves g ++ r.1, r.2)

/-- `k`-fold iteration of `peelStep` (the state of the graph at the start of
iteration `k` of the loop). -/
def iterStep : Nat → Graph → Graph
  | 0, g => g
  | k + 1, g => iterStep k (peelStep g)

/-- `topological_sort` from the source.  The unbounded Python `while` loop is
run with fuel equal to the node count, which suffices exactly when it
terminates at all; `none` models both a raised exception and divergence of
the loop (a nonempty graph left after the fuel is spent never shrinks
further, see the cycle theorems). -/
def topological_sort (dependencies : List (Str × List Str)) : Option (List Str) :=
  match buildGraph dependencies with
  | none => none
  | some (graph, name_mapping) =>
    let r := peelLoop graph.length graph
    if r.2.isEmpty then mapMOpt (fun x => alookup x name_mapping) r.1 else none

/-- `find_priority_list` from the source. -/
def find_priority_list (parse : Str → List PyStmt) (py_files : List Str) :
    Option (List Str × List (Str × List Str)) :=
  let dependencies := map_dependencies parse py_files
  match topological_sort dependencies with
  | some ordered_files => some (ordered_files, dependencies)
  | none => none

/-- A dependency cycle: a nonempty subset of the keys each of whose members
has a recorded edge back into the subset. -/
def hasCycle (g : Graph) : Prop :=
  ∃ C ∈ (keysOf g).sublists, C ≠ [] ∧
    ∀ v ∈ C, ∃ p ∈ g, p.1 = v ∧ ∃ w ∈ C, w ∈ p.2

instance (g : Graph) : Decidable (hasCycle g) := by
  unfold hasCycle; infer_instance

-- sanity checks on concrete inputs
example : get_model_name_from_filename "modeling_llama.py".toList = some "llama".toList := by decide
example : get_model_name_from_filename "a/b/modular_gemma.py".toList = some "gemma".toList := by
  decide
example : get_model_name_from_filename "transformers.models.llama.modeling_llama".toList
    = some "llama".toList := by decide
example : get_model_name_from_filename "image_processing_vit_fast".toList = some "vit".toList := by
  decide
example : get_model_name_from_filename "utils_helpers.py".toList = none := by decide
example : nodeKeyName "modular_llama.py".toList = some "llama".toList := by decide
example : nodeKeyName "src/modular_a_modular_b.py".toList = some "b".toList := by decide
example : get_model_name_from_filename "src/modular_a_modular_b.py".toList
    = some "a_modular_b".toList := by decide
example : nodeKeyName "plain.py".toList = none := by decide

/-- A concrete parser environment used by the witnesses: two modular files,
one depending on the other through an internal `modeling_` import, the first
also importing an untracked internal module. -/
def parseEx (f : Str) : List PyStmt :=
  if f = "modular_llama.py".toList then [.impFrom (some "x.modeling_mistral".toList)]
  else if f = "modular_bert.py".toList then [.impFrom (some "y.modeling_llama".toList)]
  else []

example : map_dependencies parseEx ["modular_llama.py".toList, "modular_bert.py".toList]
    = [("modular_llama.py".toList, ["x.modeling_mistral".toList]),
       ("modular_bert.py".toList, ["y.modeling_llama".toList])] := by decide

example : find_priority_list parseEx ["modular_llama.py".toList, "modular_bert.py".toList]
    = some (["modular_llama.py".toList, "modular_bert.py".toList],
      [("modular_llama.py".toList, ["x.modeling_mistral".toList]),
       ("modular_bert.py".toList, ["y.modeling_llama".toList])]) := by decide

example : buildGraph [("modular_llama.py".toList, ["x.modeling_mistral".toList]),
       ("modular_bert.py".toList, ["y.modeling_llama".toList])]
    = some ([("llama".toList, []), ("bert".toList, ["llama".toList])],
            [("llama".toList, "modular_llama.py".toList),
             ("bert".toList, "modular_bert.py".toList)]) := by decide

example : hasCycle [("p".toList, ["q".toList]), ("q".toList, ["p".toList])] := by decide
example : ¬ hasCycle [("llama".toList, []), ("bert".toList, ["llama".toList])] := by decide
example : (peelLoop 5 [("p".toList, ["q".toList]), ("q".toList, ["p".toList])]).2 ≠ [] := by decide

example : find_priority_list (fun _ => []) ["modular_a.py".toList] = some ([], []) := by decide

/-! ## String-level lemmas about the name derivations -/

theorem takeWhile_append_of_all {α : Type} {p : α → Bool} {l₁ l₂ : List α}
    (h : ∀ a ∈ l₁, p a = true) :
    (l₁ ++ l₂).takeWhile p = l₁ ++ l₂.takeWhile p := by
  rw [List.takeWhile_append, if_pos]
  rw [List.takeWhile_eq_self_iff.mpr h]

theorem takeWhileNe_reverse_eq_self {l : Str} {ch : Char} (h : ∀ c ∈ l, c ≠ ch) :
    ((l.reverse.takeWhile (fun c => c != ch)).reverse) = l := by
  rw [List.takeWhile_eq_self_iff.mpr, List.reverse_reverse]
  intro c hc
  exact bne_iff_ne.mpr (h c (List.mem_reverse.mp hc))

theorem takeWhileNe_reverse_append {d l : Str} {ch : Char} (h : ∀ c ∈ l, c ≠ ch)
    (hd : d = [] ∨ ∃ d', d = d' ++ [ch]) :
    (((d ++ l).reverse.takeWhile (fun c => c != ch)).reverse) = l := by
  rw [List.reverse_append]
  rw [takeWhile_append_of_all (fun c hc => bne_iff_ne.mpr (h c (List.mem_reverse.mp hc)))]
  rcases hd with rfl | ⟨d', rfl⟩
  · simp
  · simp [List.takeWhile_cons]

theorem dotPy_not_suffix_of_no_dot {l : Str} (hdot : ∀ c ∈ l, c ≠ '.') :
    dotPy.isSuffixOf l = false := by
  rw [← Bool.not_eq_true, List.isSuffixOf_iff_suffix]
  intro hsuf
  exact hdot '.' (hsuf.mem (by decide)) rfl

/-- When the input has no dots and no slashes, the extension-strip, basename
and last-dotted-segment steps are all identities. -/
theorem canonToken_eq_self {l : Str} (hdot : ∀ c ∈ l, c ≠ '.') (hsl : ∀ c ∈ l, c ≠ '/') :
    canonToken l = l := by
  unfold canonToken
  rw [dotPy_not_suffix_of_no_dot hdot]
  simp only [if_neg Bool.false_ne_true]
  rw [takeWhileNe_reverse_eq_self hsl, takeWhileNe_reverse_eq_self hdot]

theorem modularSep_chars : ∀ c ∈ modularSep, c ≠ '.' ∧ c ≠ '/' := by decide

/-- The canonical token of a well-formed modular path `d ++ "modular_" ++ n ++ ".py"`
(`d` empty or slash-terminated, `n` free of dots and slashes) is `"modular_" ++ n`. -/
theorem canonToken_append_path {d n : Str} (hd : d = [] ∨ ∃ d', d = d' ++ ['/'])
    (hdot : ∀ c ∈ n, c ≠ '.') (hsl : ∀ c ∈ n, c ≠ '/') :
    canonToken (d ++ modularSep ++ n ++ dotPy) = modularSep ++ n := by
  have hsepn_dot : ∀ c ∈ modularSep ++ n, c ≠ '.' := by
    intro c hc
    rcases List.mem_append.mp hc with h | h
    · exact (modularSep_chars c h).1
    · exact hdot c h
  have hsepn_sl : ∀ c ∈ modularSep ++ n, c ≠ '/' := by
    intro c hc
    rcases List.mem_append.mp hc with h | h
    · exact (modularSep_chars c h).2
    · exact hsl c h
  unfold canonToken
  have hsuf : dotPy.isSuffixOf (d ++ modularSep ++ n ++ dotPy) = true :=
    List.isSuffixOf_iff_suffix.mpr (List.suffix_append _ _)
  rw [hsuf]
  simp only [if_pos]
  have hlen : (d ++ modularSep ++ n ++ dotPy).length - 3 = (d ++ modularSep ++ n).length := by
    simp [dotPy]
    omega
  rw [hlen, List.take_left]
  have hassoc : d ++ modularSep ++ n = d ++ (modularSep ++ n) := by
    simp [List.append_assoc]
  rw [hassoc, takeWhileNe_reverse_append hsepn_sl hd, takeWhileNe_reverse_eq_self hsepn_dot]

theorem prefixes_antichain : ∀ p ∈ FILE_TYPE_PREFIXES, ∀ q ∈ FILE_TYPE_PREFIXES,
    p <+: q → p = q := by decide

theorem prefixes_ne_nil : ∀ p ∈ FILE_TYPE_PREFIXES, p ≠ [] := by decide

theorem prefixes_no_dot_slash : ∀ p ∈ FILE_TYPE_PREFIXES, ∀ c ∈ p, c ≠ '.' ∧ c ≠ '/' := by decide

theorem find?_eq_of_unique {α : Type} {p : α → Bool} {l : List α} {a : α} (ha : a ∈ l)
    (hp : p a = true) (huniq : ∀ b ∈ l, p b = true → b = a) : l.find? p = some a := by
  induction l with
  | nil => cases ha
  | cons x xs ih =>
    by_cases hx : p x = true
    · rw [List.find?_cons_of_pos _ hx, huniq x (List.mem_cons_self x xs) hx]
    · rw [List.find?_cons_of_neg _ hx]
      rcases List.mem_cons.mp ha with rfl | hmem
      · exact absurd hp hx
      · exact ih hmem (fun b hb => huniq b (List.mem_cons_of_mem x hb))

theorem replaceFirst_append_self {p s : Str} (hp : p ≠ []) :
    replaceFirst p (p ++ s) = s := by
  match p, hp with
  | c :: p', _ =>
    have hpre : (c :: p').isPrefixOf (c :: (p' ++ s)) = true := by
      rw [List.isPrefixOf_iff_prefix, ← List.cons_append]
      exact List.prefix_append _ _
    show replaceFirst (c :: p') ((c :: p') ++ s) = s
    rw [List.cons_append, replaceFirst, if_pos hpre, ← List.cons_append, List.drop_left]

/-- Core resolution lemma: when the canonical token is a recognized prefix `P`
followed by `S`, `get_model_name_from_filename` strips exactly `P` (and a
trailing `"_fast"` in the image-processing case). -/
theorem resolve_canonToken_prefix {P S t : Str} (hP : P ∈ FILE_TYPE_PREFIXES)
    (ht : canonToken t = P ++ S) :
    get_model_name_from_filename t =
      some (if decide (P = imageProcessingPrefix) && fastSuffix.isSuffixOf S
            then S.take (S.length - 5) else S) := by
  have hfind : FILE_TYPE_PREFIXES.find? (fun p => p.isPrefixOf (canonToken t)) = some P := by
    apply find?_eq_of_unique hP
    · exact List.isPrefixOf_iff_prefix.mpr (ht ▸ List.prefix_append _ _)
    · intro q hq hpref
      have hq' : q <+: P ++ S := ht ▸ List.isPrefixOf_iff_prefix.mp hpref
      rcases List.prefix_or_prefix_of_prefix hq' (List.prefix_append P S) with h | h
      · exact prefixes_antichain q hq P hP h
      · exact (prefixes_antichain P hP q hq h).symm
  rw [ht] at hfind
  simp only [get_model_name_from_filename, ht, hfind,
    replaceFirst_append_self (prefixes_ne_nil P hP)]

/-! ## C8: resolution of prefix-plus-suffix filenames -/

/-- Shared resolution lemma: for a recognized prefix `P` and a suffix `S`
containing no `'.'` and no `'/'`, the filename `P ++ S` resolves to `S`
(minus a trailing `"_fast"` in the image-processing case). -/
theorem resolve_prefix_concat (P S : Str) (hP : P ∈ FILE_TYPE_PREFIXES)
    (hdot : ∀ c ∈ S, c ≠ '.') (hsl : ∀ c ∈ S, c ≠ '/') :
    get_model_name_from_filename (P ++ S) =
      some (if decide (P = imageProcessingPrefix) && fastSuffix.isSuffixOf S
            then S.take (S.length - 5) else S) := by
  apply resolve_canonToken_prefix hP
  apply canonToken_eq_self
  · intro c hc
    rcases List.mem_append.mp hc with h | h
    · exact (prefixes_no_dot_slash P hP c h).1
    · exact hdot c h
  · intro c hc
    rcases List.mem_append.mp hc with h | h
    · exact (prefixes_no_dot_slash P hP c h).2
    · exact hsl c h

/-- C8 (amended): for every recognized prefix `P` and every non-empty suffix
`S` containing no `'.'` and no `'/'`, the filename `P ++ S` resolves to `S`,
except that in the image-processing case a trailing `"_fast"` is stripped. -/
theorem c8_resolve_prefix_concat (P S : Str) (hP : P ∈ FILE_TYPE_PREFIXES) (hS : S ≠ [])
    (hdot : ∀ c ∈ S, c ≠ '.') (hsl : ∀ c ∈ S, c ≠ '/') :
    get_model_name_from_filename (P ++ S) =
      some (if decide (P = imageProcessingPrefix) && fastSuffix.isSuffixOf S
            then S.take (S.length - 5) else S) :=
  resolve_prefix_concat P S hP hdot hsl

/-- C8 counterexample: the claim fails for suffixes containing a dot — the
`.py`-strip and last-dotted-segment steps rewrite the suffix, so
`"modular_" ++ "foo.py"` resolves to `"foo"`, not `"foo.py"`. -/
theorem c8_counterexample :
    "modular_".toList ∈ FILE_TYPE_PREFIXES ∧ "foo.py".toList ≠ ([] : Str) ∧
    get_model_name_from_filename ("modular_".toList ++ "foo.py".toList) ≠
      some "foo.py".toList := by decide

theorem c8_witness :
    "image_processing_".toList ∈ FILE_TYPE_PREFIXES ∧ "vit_fast".toList ≠ ([] : Str) ∧
    get_model_name_from_filename ("image_processing_".toList ++ "vit_fast".toList) =
      some "vit".toList := by
  refine ⟨by decide, by decide, ?_⟩
  have h := c8_resolve_prefix_concat "image_processing_".toList "vit_fast".toList
    (by decide) (by decide) (by decide) (by decide)
  exact h.trans (by decide)

/-! ## C7: unrecognized filenames are rejected -/

/-- C7: `get_model_name_from_filename` fails (the `ValueError` case, modelled
as `none`) for every filename whose canonical token starts with none of the
recognized prefixes; it never returns a name there. -/
theorem c7_unrecognized_fails (f : Str)
    (h : ∀ p ∈ FILE_TYPE_PREFIXES, p.isPrefixOf (canonToken f) = false) :
    get_model_name_from_filename f = none := by
  have hnone : FILE_TYPE_PREFIXES.find? (fun p => p.isPrefixOf (canonToken f)) = none :=
    List.find?_eq_none.mpr (fun p hp => by rw [h p hp]; exact Bool.false_ne_true)
  simp only [get_model_name_from_filename, hnone]

theorem c7_witness : get_model_name_from_filename "utils_helpers.py".toList = none :=
  c7_unrecognized_fails _ (by decide)

/-! ## Lemmas on the `rsplit`-based node-key derivation -/

theorem afterLast_eq_none_iff {sep : Str} (hsep : sep ≠ []) (l : Str) :
    afterLast sep l = none ↔ ¬ sep <:+: l := by
  induction l with
  | nil =>
    simp [afterLast, List.infix_nil, hsep]
  | cons c rest ih =>
    rw [afterLast]
    cases h : afterLast sep rest with
    | some r =>
      simp only [List.infix_cons_iff]
      constructor
      · intro hcontra; cases hcontra
      · intro hcontra
        exact absurd (Or.inr (by
          by_contra hni
          rw [ih.mpr hni] at h
          cases h)) hcontra
    | none =>
      simp only [List.infix_cons_iff]
      by_cases hpre : sep.isPrefixOf (c :: rest) = true
      · rw [if_pos hpre]
        simp only [List.isPrefixOf_iff_prefix] at hpre
        constructor
        · intro hcontra; cases hcontra
        · intro hcontra; exact absurd (Or.inl hpre) hcontra
      · rw [if_neg hpre]
        simp only [List.isPrefixOf_iff_prefix, Bool.not_eq_true] at hpre
        constructor
        · intro _ hcontra
          rcases hcontra with hc | hc
          · exact absurd (List.isPrefixOf_iff_prefix.mpr hc) (by simp [hpre])
          · exact (ih.mp h) hc
        · intro _; rfl

theorem afterLast_append_of_not_infix {sep ys : Str} (hsep : sep ≠ [])
    (h : ¬ sep <:+: (sep ++ ys).drop 1) :
    ∀ xs, afterLast sep (xs ++ (sep ++ ys)) = some ys := by
  intro xs
  induction xs with
  | nil =>
    match sep, hsep with
    | s :: sep', _ =>
      show afterLast (s :: sep') (s :: (sep' ++ ys)) = some ys
      rw [afterLast]
      have htail : afterLast (s :: sep') (sep' ++ ys) = none := by
        rw [afterLast_eq_none_iff (by simp)]
        simpa using h
      rw [htail]
      have hpre : (s :: sep').isPrefixOf (s :: (sep' ++ ys)) = true := by
        rw [List.isPrefixOf_iff_prefix, ← List.cons_append]
        exact List.prefix_append _ _
      rw [if_pos hpre, ← List.cons_append, List.drop_left]
  | cons x xs ih =>
    show afterLast sep (x :: (xs ++ (sep ++ ys))) = some ys
    rw [afterLast, ih]

theorem removeDotPy_cons_ne (c : Char) (l : Str) (hc : c ≠ '.') (hl : 2 ≤ l.length) :
    removeDotPy (c :: l) = c :: removeDotPy l := by
  match l, hl with
  | a :: b :: t, _ =>
    show removeDotPy (c :: a :: b :: t) = c :: removeDotPy (a :: b :: t)
    rw [removeDotPy]
    simp [hc]

theorem removeDotPy_append_dotPy {n : Str} (hdot : ∀ c ∈ n, c ≠ '.') :
    removeDotPy (n ++ dotPy) = n := by
  induction n with
  | nil => decide
  | cons c n' ih =>
    rw [List.cons_append, removeDotPy_cons_ne c (n' ++ dotPy)
      (hdot c (List.mem_cons_self c n')) (by simp [dotPy])]
    rw [ih (fun a ha => hdot a (List.mem_cons_of_mem c ha))]

/-! ## C4: the two name derivations -/

/-- C4 counterexample: on `"modular_a_modular_b.py"` the `rsplit`-based node
key used by `topological_sort` is `"b"` while `get_model_name_from_filename`
yields `"a_modular_b"` — the two derivations disagree on this tracked path. -/
theorem c4_counterexample :
    nodeKeyName "modular_a_modular_b.py".toList = some "b".toList ∧
    get_model_name_from_filename "modular_a_modular_b.py".toList =
      some "a_modular_b".toList ∧
    nodeKeyName "modular_a_modular_b.py".toList ≠
      get_model_name_from_filename "modular_a_modular_b.py".toList := by decide

/-- C4 (amended): on well-formed modular paths `d ++ "modular_" ++ n ++ ".py"`
— directory part `d` empty or slash-terminated, model part `n` non-empty and
free of `'.'` and `'/'`, and `"modular_"` occurring nowhere after its
designated position — both derivations agree and produce `n`. -/
theorem c4_node_name_equiv (d n : Str) (hd : d = [] ∨ ∃ d', d = d' ++ ['/'])
    (hn : n ≠ []) (hdot : ∀ c ∈ n, c ≠ '.') (hsl : ∀ c ∈ n, c ≠ '/')
    (hlast : ¬ modularSep <:+: (modularSep ++ (n ++ dotPy)).drop 1) :
    nodeKeyName (d ++ modularSep ++ n ++ dotPy) = some n ∧
    get_model_name_from_filename (d ++ modularSep ++ n ++ dotPy) = some n := by
  constructor
  · unfold nodeKeyName
    have hpath : d ++ modularSep ++ n ++ dotPy = d ++ (modularSep ++ (n ++ dotPy)) := by
      simp [List.append_assoc]
    rw [hpath, afterLast_append_of_not_infix (by decide) hlast d]
    simp [removeDotPy_append_dotPy hdot]
  · have h := resolve_canonToken_prefix (P := modularSep) (S := n) (by decide)
      (canonToken_append_path hd hdot hsl)
    rw [h]
    have hne : decide (modularSep = imageProcessingPrefix) = false := by decide
    rw [hne]
    simp

theorem c4_witness :
    nodeKeyName ("src/".toList ++ modularSep ++ "llama".toList ++ dotPy) =
      some "llama".toList ∧
    get_model_name_from_filename ("src/".toList ++ modularSep ++ "llama".toList ++ dotPy) =
      some "llama".toList :=
  c4_node_name_equiv "src/".toList "llama".toList (Or.inr ⟨"src".toList, by decide⟩)
    (by decide) (by decide) (by decide) (by decide)

/-! ## C9: the `_fast` image-processing variant -/

/-- C9 counterexample: for `N = "x_fast"` the two variants resolve to
different names, because only one trailing `"_fast"` is stripped. -/
theorem c9_counterexample :
    get_model_name_from_filename
        ("image_processing_".toList ++ "x_fast".toList ++ "_fast".toList) =
      some "x_fast".toList ∧
    get_model_name_from_filename ("image_processing_".toList ++ "x_fast".toList) =
      some "x".toList ∧
    get_model_name_from_filename
        ("image_processing_".toList ++ "x_fast".toList ++ "_fast".toList) ≠
      get_model_name_from_filename ("image_processing_".toList ++ "x_fast".toList) := by
  decide

/-- C9 (amended): for every non-empty `N` free of dots and slashes that does
not itself end in `"_fast"`, the filenames `"image_processing_" ++ N ++ "_fast"`
and `"image_processing_" ++ N` resolve to the same entity name `N`. -/
theorem c9_fast_variant_equiv (N : Str) (hN : N ≠ [])
    (hdot : ∀ c ∈ N, c ≠ '.') (hsl : ∀ c ∈ N, c ≠ '/')
    (hfast : ¬ fastSuffix <:+ N) :
    get_model_name_from_filename (imageProcessingPrefix ++ N ++ fastSuffix) =
      get_model_name_from_filename (imageProcessingPrefix ++ N) ∧
    get_model_name_from_filename (imageProcessingPrefix ++ N) = some N := by
  have hfastchars : ∀ c ∈ fastSuffix, c ≠ '.' ∧ c ≠ '/' := by decide
  have h1 : get_model_name_from_filename (imageProcessingPrefix ++ N ++ fastSuffix) =
      some N := by
    rw [List.append_assoc]
    have h := resolve_prefix_concat imageProcessingPrefix (N ++ fastSuffix)
      (by decide)
      (by intro c hc
          rcases List.mem_append.mp hc with h | h
          · exact hdot c h
          · exact (hfastchars c h).1)
      (by intro c hc
          rcases List.mem_append.mp hc with h | h
          · exact hsl c h
          · exact (hfastchars c h).2)
    rw [h]
    have hsuf : fastSuffix.isSuffixOf (N ++ fastSuffix) = true :=
      List.isSuffixOf_iff_suffix.mpr (List.suffix_append _ _)
    rw [hsuf]
    have hlen : (N ++ fastSuffix).length - 5 = N.length := by
      simp [fastSuffix]
    have h5 : fastSuffix.length = 5 := by decide
    simp [hlen, h5, List.take_left]
  have h2 : get_model_name_from_filename (imageProcessingPrefix ++ N) = some N := by
    have h := resolve_prefix_concat imageProcessingPrefix N (by decide) hdot hsl
    rw [h]
    have hsuf : fastSuffix.isSuffixOf N = false := by
      rw [← Bool.not_eq_true, List.isSuffixOf_iff_suffix]
      exact hfast
    rw [hsuf]
    simp
  exact ⟨h1.trans h2.symm, h2⟩

theorem c9_witness :
    get_model_name_from_filename (imageProcessingPrefix ++ "vit".toList ++ fastSuffix) =
      get_model_name_from_filename (imageProcessingPrefix ++ "vit".toList) ∧
    get_model_name_from_filename (imageProcessingPrefix ++ "vit".toList) =
      some "vit".toList :=
  c9_fast_variant_equiv "vit".toList (by decide) (by decide) (by decide) (by decide)

/-! ## C10: characterization of the extracted import set -/

theorem isInfixL_iff {p l : Str} : isInfixL p l = true ↔ p <:+: l := by
  induction l with
  | nil => simp [isInfixL, List.isPrefixOf_iff_prefix, List.infix_nil, List.prefix_nil]
  | cons c rest ih =>
    simp [isInfixL, List.isPrefixOf_iff_prefix, List.infix_cons_iff, ih]

theorem mem_insertSet {a m : Str} {s : List Str} :
    a ∈ insertSet m s ↔ a = m ∨ a ∈ s := by
  unfold insertSet
  by_cases h : m ∈ s
  · rw [if_pos h]
    constructor
    · exact Or.inr
    · rintro (rfl | ha)
      · exact h
      · exact ha
  · rw [if_neg h]
    simp [or_comm]

theorem nodup_insertSet {m : Str} {s : List Str} (hs : s.Nodup) :
    (insertSet m s).Nodup := by
  unfold insertSet
  by_cases h : m ∈ s
  · rwa [if_pos h]
  · rw [if_neg h, List.nodup_append]
    refine ⟨hs, List.nodup_singleton m, fun a ha ham => ?_⟩
    rw [List.mem_singleton] at ham
    exact h (ham ▸ ha)

theorem mem_extractStep {a : Str} {acc : List Str} {node : PyStmt} :
    a ∈ extractStep acc node ↔
      a ∈ acc ∨ (node = PyStmt.impFrom (some a) ∧ a ≠ [] ∧
        (modelingMarker <:+: a ∨ transformersModelsMarker <:+: a)) := by
  cases node with
  | imp s => simp [extractStep]
  | impFrom module =>
    cases module with
    | none => simp [extractStep]
    | some m =>
      simp only [extractStep]
      by_cases hcond :
          (decide (m ≠ []) && (isInfixL modelingMarker m || isInfixL transformersModelsMarker m))
            = true
      · rw [if_pos hcond]
        simp only [Bool.and_eq_true, Bool.or_eq_true, decide_eq_true_eq, isInfixL_iff] at hcond
        rw [mem_insertSet]
        constructor
        · rintro (rfl | ha)
          · exact Or.inr ⟨rfl, hcond.1, hcond.2⟩
          · exact Or.inl ha
        · rintro (ha | ⟨heq, _, _⟩)
          · exact Or.inr ha
          · cases heq
            exact Or.inl rfl
      · rw [if_neg hcond]
        simp only [Bool.and_eq_true, Bool.or_eq_true, decide_eq_true_eq, isInfixL_iff,
          not_and_or, not_or] at hcond
        constructor
        · exact Or.inl
        · rintro (ha | ⟨heq, hne, hmk⟩)
          · exact ha
          · cases heq
            rcases hcond with h | h
            · exact absurd hne (by simpa using h)
            · exact absurd hmk (by tauto)

theorem nodup_extractStep {acc : List Str} {node : PyStmt} (h : acc.Nodup) :
    (extractStep acc node).Nodup := by
  cases node with
  | imp s => exact h
  | impFrom module =>
    cases module with
    | none => exact h
    | some m =>
      simp only [extractStep]
      split
      · exact nodup_insertSet h
      · exact h

theorem mem_extract_foldl (tree : List PyStmt) (acc : List Str) (a : Str) :
    a ∈ tree.foldl extractStep acc ↔
      a ∈ acc ∨ (PyStmt.impFrom (some a) ∈ tree ∧ a ≠ [] ∧
        (modelingMarker <:+: a ∨ transformersModelsMarker <:+: a)) := by
  induction tree generalizing acc with
  | nil => simp
  | cons node rest ih =>
    rw [List.foldl_cons, ih, mem_extractStep]
    constructor
    · rintro ((ha | ⟨heq, hp⟩) | ⟨hmem, hp⟩)
      · exact Or.inl ha
      · exact Or.inr ⟨heq ▸ List.mem_cons_self _ _, hp⟩
      · exact Or.inr ⟨List.mem_cons_of_mem _ hmem, hp⟩
    · rintro (ha | ⟨hmem, hp⟩)
      · exact Or.inl (Or.inl ha)
      · rcases List.mem_cons.mp hmem with heq | hmem'
        · exact Or.inl (Or.inr ⟨heq.symm, hp⟩)
        · exact Or.inr ⟨hmem', hp⟩

theorem nodup_extract_foldl (tree : List PyStmt) (acc : List Str) (h : acc.Nodup) :
    (tree.foldl extractStep acc).Nodup := by
  induction tree generalizing acc with
  | nil => exact h
  | cons node rest ih => exact ih _ (nodup_extractStep h)

/-- C10: the extracted import set of a parsed file consists of exactly the
non-empty `from X import Y` module paths containing `".modeling_"` or
`"transformers.models"` as a substring; plain `import X` nodes contribute
nothing, and the result is duplicate-free. -/
theorem c10_extract_imports (tree : List PyStmt) :
    (extract_classes_and_imports tree).Nodup ∧
    ∀ m : Str, m ∈ extract_classes_and_imports tree ↔
      (PyStmt.impFrom (some m) ∈ tree ∧ m ≠ [] ∧
        (modelingMarker <:+: m ∨ transformersModelsMarker <:+: m)) := by
  constructor
  · exact nodup_extract_foldl tree [] List.nodup_nil
  · intro m
    rw [extract_classes_and_imports, mem_extract_foldl]
    simp

/-! ## Association-list and `mapMOpt` lemmas -/

theorem mem_dinsert {β : Type} {p : Str × β} {k : Str} {v : β} {l : List (Str × β)}
    (h : p ∈ dinsert k v l) : p = (k, v) ∨ p ∈ l := by
  induction l with
  | nil => simpa [dinsert] using h
  | cons q rest ih =>
    rcases q with ⟨k', v'⟩
    simp only [dinsert] at h
    by_cases hk : k = k'
    · rw [if_pos hk] at h
      rcases List.mem_cons.mp h with rfl | hmem
      · exact Or.inl rfl
      · exact Or.inr (List.mem_cons_of_mem _ hmem)
    · rw [if_neg hk] at h
      rcases List.mem_cons.mp h with rfl | hmem
      · exact Or.inr (List.mem_cons_self _ _)
      · rcases ih hmem with h1 | h1
        · exact Or.inl h1
        · exact Or.inr (List.mem_cons_of_mem _ h1)

theorem keysOf_nil {β : Type} : keysOf ([] : List (Str × β)) = [] := rfl

theorem keysOf_cons {β : Type} (p : Str × β) (l : List (Str × β)) :
    keysOf (p :: l) = p.1 :: keysOf l := rfl

theorem keysOf_dinsert {β : Type} {k : Str} {v : β} {l : List (Str × β)} :
    keysOf (dinsert k v l) =
      if k ∈ keysOf l then keysOf l else keysOf l ++ [k] := by
  induction l with
  | nil =>
    rw [keysOf_nil, if_neg (List.not_mem_nil k)]
    rfl
  | cons q rest ih =>
    rcases q with ⟨k', v'⟩
    by_cases hk : k = k'
    · subst hk
      simp only [dinsert, eq_self_iff_true, if_true, keysOf_cons]
      rw [if_pos (List.mem_cons_self k _)]
    · simp only [dinsert, if_neg hk, keysOf_cons, ih]
      by_cases hmem : k ∈ keysOf rest
      · rw [if_pos hmem, if_pos (List.mem_cons.mpr (Or.inr hmem))]
      · rw [if_neg hmem, if_neg (by simp [List.mem_cons, hk, hmem]), List.cons_append]

theorem dinsert_fresh {β : Type} {k : Str} {v : β} {l : List (Str × β)}
    (h : k ∉ keysOf l) : dinsert k v l = l ++ [(k, v)] := by
  induction l with
  | nil => rfl
  | cons q rest ih =>
    rcases q with ⟨k', v'⟩
    rw [keysOf_cons, List.mem_cons, not_or] at h
    simp only [dinsert, if_neg (by exact h.1), List.cons_append]
    rw [ih h.2]

theorem nodup_keysOf_dinsert {β : Type} {k : Str} {v : β} {l : List (Str × β)}
    (h : (keysOf l).Nodup) : (keysOf (dinsert k v l)).Nodup := by
  rw [keysOf_dinsert]
  by_cases hmem : k ∈ keysOf l
  · rwa [if_pos hmem]
  · rw [if_neg hmem, List.nodup_append]
    refine ⟨h, List.nodup_singleton k, fun a ha ham => ?_⟩
    rw [List.mem_singleton] at ham
    exact hmem (ham ▸ ha)

theorem alookup_dinsert {β : Type} {k a : Str} {v : β} {l : List (Str × β)} :
    alookup a (dinsert k v l) = if a = k then some v else alookup a l := by
  induction l with
  | nil => simp [dinsert, alookup]
  | cons q rest ih =>
    rcases q with ⟨k', v'⟩
    by_cases hk : k = k'
    · subst hk
      by_cases ha : a = k <;> simp [dinsert, alookup, ha]
    · by_cases ha : a = k' <;> by_cases hak : a = k
      · exact absurd (hak.symm.trans ha) hk
      · simp [dinsert, alookup, if_neg hk, ha, hak, Ne.symm hk]
      · subst hak
        simp [dinsert, alookup, if_neg hk, ha, Ne.symm hk, ih]
      · simp [dinsert, alookup, if_neg hk, ha, hak, ih, Ne.symm hk]

theorem mapMOpt_cons_some {α β : Type} {f : α → Option β} {a : α} {l : List α} {r : List β} :
    mapMOpt f (a :: l) = some r ↔
      ∃ b r', f a = some b ∧ mapMOpt f l = some r' ∧ r = b :: r' := by
  cases hfa : f a <;> cases hl : mapMOpt f l <;>
    simp [mapMOpt, hfa, hl, eq_comm]

theorem mapMOpt_append {α β : Type} {f : α → Option β} {l₁ l₂ : List α} {r : List β} :
    mapMOpt f (l₁ ++ l₂) = some r ↔
      ∃ r₁ r₂, mapMOpt f l₁ = some r₁ ∧ mapMOpt f l₂ = some r₂ ∧ r = r₁ ++ r₂ := by
  induction l₁ generalizing r with
  | nil =>
    simp [mapMOpt]
  | cons a l₁' ih =>
    rw [List.cons_append, mapMOpt_cons_some]
    constructor
    · rintro ⟨b, r', hfa, hrest, rfl⟩
      rcases ih.mp hrest with ⟨r₁, r₂, h1, h2, rfl⟩
      exact ⟨b :: r₁, r₂, mapMOpt_cons_some.mpr ⟨b, r₁, hfa, h1, rfl⟩, h2, rfl⟩
    · rintro ⟨r₁, r₂, h1, h2, rfl⟩
      rcases mapMOpt_cons_some.mp h1 with ⟨b, r₁', hfa, h1', rfl⟩
      exact ⟨b, r₁' ++ r₂, hfa, ih.mpr ⟨r₁', r₂, h1', h2, rfl⟩, rfl⟩

theorem mapMOpt_mem_some {α β : Type} {f : α → Option β} {l : List α} {r : List β}
    {x : α} {y : β} (h : mapMOpt f l = some r) (hx : x ∈ l) (hy : f x = some y) :
    y ∈ r := by
  induction l generalizing r with
  | nil => cases hx
  | cons a l' ih =>
    rcases mapMOpt_cons_some.mp h with ⟨b, r', hfa, hrest, rfl⟩
    rcases List.mem_cons.mp hx with rfl | hx'
    · rw [hfa] at hy
      exact List.mem_cons.mpr (Or.inl (Option.some_inj.mp hy).symm)
    · exact List.mem_cons_of_mem _ (ih hrest hx')

theorem mapMOpt_mem_rev {α β : Type} {f : α → Option β} {l : List α} {r : List β}
    {y : β} (h : mapMOpt f l = some r) (hy : y ∈ r) : ∃ x ∈ l, f x = some y := by
  induction l generalizing r with
  | nil =>
    simp [mapMOpt] at h
    subst h
    cases hy
  | cons a l' ih =>
    rcases mapMOpt_cons_some.mp h with ⟨b, r', hfa, hrest, rfl⟩
    rcases List.mem_cons.mp hy with rfl | hy'
    · exact ⟨a, List.mem_cons_self _ _, hfa⟩
    · rcases ih hrest hy' with ⟨x, hx, hfx⟩
      exact ⟨x, List.mem_cons_of_mem _ hx, hfx⟩

theorem mapMOpt_isSome_elem {α β : Type} {f : α → Option β} {l : List α} {r : List β}
    {x : α} (h : mapMOpt f l = some r) (hx : x ∈ l) : (f x).isSome := by
  induction l generalizing r with
  | nil => cases hx
  | cons a l' ih =>
    rcases mapMOpt_cons_some.mp h with ⟨b, r', hfa, hrest, rfl⟩
    rcases List.mem_cons.mp hx with rfl | hx'
    · simp [hfa]
    · exact ih hrest hx'

theorem mapMOpt_total {α β : Type} {f : α → Option β} {l : List α}
    (h : ∀ x ∈ l, (f x).isSome) : ∃ r, mapMOpt f l = some r := by
  induction l with
  | nil => exact ⟨[], rfl⟩
  | cons a l' ih =>
    rcases ih (fun x hx => h x (List.mem_cons_of_mem _ hx)) with ⟨r', hr'⟩
    rcases Option.isSome_iff_exists.mp (h a (List.mem_cons_self _ _)) with ⟨b, hb⟩
    exact ⟨b :: r', mapMOpt_cons_some.mpr ⟨b, r', hb, hr', rfl⟩⟩

/-! ## Graph-construction invariants (C5, C6) -/

/-- Every entry of the graph built by `buildGraphAux` is either inherited from
the accumulator or has the filtered form produced from some input entry. -/
theorem buildGraphAux_invariant {nodes : List Str} (Q : Str × List Str → Prop)
    (hQ : ∀ (node_name : Str) (dep_names : List Str), Q (node_name,
      dep_names.filter (fun d => decide (d ∈ nodes) && decide (d ≠ node_name)))) :
    ∀ {rest g0 nm0 g nm}, buildGraphAux nodes rest g0 nm0 = some (g, nm) →
      (∀ p ∈ g0, Q p) → ∀ p ∈ g, Q p := by
  intro rest
  induction rest with
  | nil =>
    intro g0 nm0 g nm h h0
    simp only [buildGraphAux] at h
    rcases h with ⟨rfl, rfl⟩
    exact h0
  | cons e rest' ih =>
    intro g0 nm0 g nm h h0
    rcases e with ⟨node, deps⟩
    simp only [buildGraphAux] at h
    cases hk : nodeKeyName node with
    | none => rw [hk] at h; cases h
    | some node_name =>
      cases hdm : mapMOpt get_model_name_from_filename deps with
      | none => rw [hk, hdm] at h; cases h
      | some dep_names =>
        rw [hk, hdm] at h
        refine ih h (fun p hp => ?_)
        rcases mem_dinsert hp with rfl | hmem
        · exact hQ node_name dep_names
        · exact h0 p hmem

theorem buildGraphAux_total {nodes : List Str} :
    ∀ {rest : List (Str × List Str)} {g0 nm0},
      (∀ p ∈ rest, (nodeKeyName p.1).isSome) →
      (∀ p ∈ rest, ∀ m ∈ p.2, (get_model_name_from_filename m).isSome) →
      ∃ g nm, buildGraphAux nodes rest g0 nm0 = some (g, nm) := by
  intro rest
  induction rest with
  | nil => exact fun _ _ => ⟨_, _, rfl⟩
  | cons e rest' ih =>
    intro g0 nm0 hk hd
    rcases e with ⟨node, deps⟩
    rcases Option.isSome_iff_exists.mp (hk _ (List.mem_cons_self _ _)) with ⟨nn, hnn⟩
    rcases mapMOpt_total (hd _ (List.mem_cons_self _ _)) with ⟨dn, hdn⟩
    simp only [buildGraphAux, hnn, hdn]
    exact ih (fun p hp => hk p (List.mem_cons_of_mem _ hp))
      (fun p hp => hd p (List.mem_cons_of_mem _ hp))

/-- C5: the filtered dependency graph never contains a self-loop — the
`dep != node_name` filter removes every dependency equal to the node's own
name, even when a file imports a module resolving to its own entity. -/
theorem c5_no_self_loops (deps : List (Str × List Str))
    (g : List (Str × List Str)) (nm : List (Str × Str))
    (h : buildGraph deps = some (g, nm)) : ∀ p ∈ g, p.1 ∉ p.2 := by
  unfold buildGraph at h
  cases hn : mapMOpt (fun p => nodeKeyName p.1) deps with
  | none => rw [hn] at h; cases h
  | some nodes =>
    rw [hn] at h
    refine buildGraphAux_invariant (fun p => p.1 ∉ p.2) ?_ h (fun p hp => absurd hp
      (List.not_mem_nil p)) 
    intro node_name dep_names hmem
    have := List.of_mem_filter hmem
    simp only [Bool.and_eq_true, decide_eq_true_eq] at this
    exact this.2 rfl

theorem c5_witness : "llama".toList ∉ ([] : List Str) :=
  c5_no_self_loops [("modular_llama.py".toList, ["x.modeling_llama".toList])]
    [("llama".toList, [])] [("llama".toList, "modular_llama.py".toList)]
    (by decide) ("llama".toList, ([] : List Str)) (by decide)

/-- C6: a dependency whose canonical entity name is not in the tracked node
set is silently dropped: the graph build succeeds whenever every key and every
dependency resolves individually, every edge of the filtered graph points
into the tracked node set (so untracked names never appear as edges), and the
raw dependency map is returned to the caller unchanged. -/
theorem c6_untracked_deps_dropped (parse : Str → List PyStmt) (py_files : List Str)
    (nodes : List Str)
    (hnodes : mapMOpt (fun p => nodeKeyName p.1) (map_dependencies parse py_files) =
      some nodes)
    (hres : ∀ p ∈ map_dependencies parse py_files, ∀ m ∈ p.2,
      (get_model_name_from_filename m).isSome) :
    (∃ g nm, buildGraph (map_dependencies parse py_files) = some (g, nm) ∧
      ∀ p ∈ g, ∀ d ∈ p.2, d ∈ nodes) ∧
    ∀ o dm, find_priority_list parse py_files = some (o, dm) →
      dm = map_dependencies parse py_files := by
  constructor
  · have hk : ∀ p ∈ map_dependencies parse py_files, (nodeKeyName p.1).isSome :=
      fun p hp => by
        rcases Option.isSome_iff_exists.mp
          (mapMOpt_isSome_elem hnodes hp) with ⟨nn, hnn⟩
        simp [hnn]
    rcases @buildGraphAux_total nodes (map_dependencies parse py_files) [] [] hk hres
      with ⟨g, nm, haux⟩
    refine ⟨g, nm, ?_, ?_⟩
    · unfold buildGraph
      rw [hnodes]
      exact haux
    · refine buildGraphAux_invariant (fun p => ∀ d ∈ p.2, d ∈ nodes) ?_ haux
        (fun p hp => absurd hp (List.not_mem_nil p))
      intro node_name dep_names d hd
      have := List.of_mem_filter hd
      simp only [Bool.and_eq_true, decide_eq_true_eq] at this
      exact this.1
  · intro o dm h
    simp only [find_priority_list] at h
    cases ht : topological_sort (map_dependencies parse py_files) with
    | none => rw [ht] at h; cases h
    | some ordered =>
      rw [ht] at h
      rcases h with ⟨rfl, rfl⟩
      rfl

theorem c6_witness :
    (∃ g nm, buildGraph (map_dependencies parseEx
        ["modular_llama.py".toList, "modular_bert.py".toList]) = some (g, nm) ∧
      ∀ p ∈ g, ∀ d ∈ p.2, d ∈ ["llama".toList, "bert".toList]) ∧
    ∀ o dm, find_priority_list parseEx
        ["modular_llama.py".toList, "modular_bert.py".toList] = some (o, dm) →
      dm = map_dependencies parseEx
        ["modular_llama.py".toList, "modular_bert.py".toList] :=
  c6_untracked_deps_dropped parseEx
    ["modular_llama.py".toList, "modular_bert.py".toList]
    ["llama".toList, "bert".toList] (by decide) (by decide)

/-! ## Lemmas about the peel loop -/

theorem entry_unique {β : Type} {g : List (Str × β)} (hnd : (keysOf g).Nodup)
    {p q : Str × β} (hp : p ∈ g) (hq : q ∈ g) (hk : p.1 = q.1) : p = q := by
  induction g with
  | nil => cases hp
  | cons r rest ih =>
    rw [keysOf_cons] at hnd
    have hr1 : r.1 ∉ keysOf rest := (List.nodup_cons.mp hnd).1
    rcases List.mem_cons.mp hp with rfl | hp' <;> rcases List.mem_cons.mp hq with rfl | hq'
    · rfl
    · exact absurd (hk ▸ List.mem_map.mpr ⟨q, hq', rfl⟩) hr1
    · exact absurd (hk ▸ List.mem_map.mpr ⟨p, hp', rfl⟩ : q.1 ∈ keysOf rest) hr1
    · exact ih (List.nodup_cons.mp hnd).2 hp' hq'

theorem mem_leaves_iff {g : Graph} (hnd : (keysOf g).Nodup) {a : Str} {ds : List Str}
    (hmem : (a, ds) ∈ g) : a ∈ leaves g ↔ ds = [] := by
  constructor
  · intro ha
    rcases List.mem_map.mp ha with ⟨p, hp, hfst⟩
    have hpg : p ∈ g := (List.mem_filter.mp hp).1
    have hpe : p.2.isEmpty = true := (List.mem_filter.mp hp).2
    have heq := entry_unique hnd hpg hmem (by rw [hfst])
    rw [heq] at hpe
    exact List.isEmpty_iff.mp hpe
  · intro hds
    subst hds
    exact List.mem_map.mpr ⟨(a, []), List.mem_filter.mpr ⟨hmem, rfl⟩, rfl⟩

theorem mem_peelStep_of {g : Graph} {a : Str} {ds : List Str} (hmem : (a, ds) ∈ g)
    (ha : a ∉ leaves g) :
    (a, ds.filter (fun d => !decide (d ∈ leaves g))) ∈ peelStep g := by
  simp only [peelStep]
  exact List.mem_map.mpr ⟨(a, ds),
    List.mem_filter.mpr ⟨hmem, by simp [ha]⟩, rfl⟩

theorem mem_peelStep_elim {g : Graph} {p : Str × List Str} (hp : p ∈ peelStep g) :
    ∃ q ∈ g, q.1 ∉ leaves g ∧
      p = (q.1, q.2.filter (fun d => !decide (d ∈ leaves g))) := by
  simp only [peelStep] at hp
  rcases List.mem_map.mp hp with ⟨q, hq, rfl⟩
  have hqg := (List.mem_filter.mp hq).1
  have hql := (List.mem_filter.mp hq).2
  exact ⟨q, hqg, by simpa using hql, rfl⟩

theorem keysOf_peelStep (g : Graph) :
    keysOf (peelStep g) = (keysOf g).filter (fun k => !decide (k ∈ leaves g)) := by
  simp only [peelStep]
  generalize leaves g = L
  induction g with
  | nil => rfl
  | cons p rest ih =>
    rcases p with ⟨a, ds⟩
    rw [List.filter_cons, keysOf_cons, List.filter_cons]
    by_cases ha : a ∈ L
    · have hb : (!decide ((a, ds).1 ∈ L)) = false := by simp [ha]
      rw [hb, if_neg (by simp), if_neg (by simp)]
      exact ih
    · have hb : (!decide ((a, ds).1 ∈ L)) = true := by simp [ha]
      rw [hb, if_pos rfl, if_pos rfl, List.map_cons, keysOf_cons, ih]

theorem keysOf_peelStep_sublist (g : Graph) :
    (keysOf (peelStep g)).Sublist (keysOf g) := by
  rw [keysOf_peelStep]
  exact List.filter_sublist _

theorem nodup_keysOf_peelStep {g : Graph} (h : (keysOf g).Nodup) :
    (keysOf (peelStep g)).Nodup :=
  (keysOf_peelStep_sublist g).nodup h

theorem leaves_eq_nil_iff {g : Graph} : leaves g = [] ↔ ∀ p ∈ g, p.2 ≠ [] := by
  unfold leaves
  rw [List.map_eq_nil, List.filter_eq_nil_iff]
  constructor
  · intro h p hp hpe
    exact h p hp (by simp [hpe])
  · intro h p hp hpe
    exact h p hp (List.isEmpty_iff.mp hpe)

theorem peelStep_of_no_leaves {g : Graph} (h : leaves g = []) : peelStep g = g := by
  simp only [peelStep, h]
  have h1 : g.filter (fun p => !decide (p.1 ∈ ([] : List Str))) = g :=
    List.filter_eq_self.mpr (fun p _ => by simp)
  rw [h1]
  have h2 : ∀ p : Str × List Str,
      (p.1, p.2.filter (fun d => !decide (d ∈ ([] : List Str)))) = p := by
    intro p
    rw [List.filter_eq_self.mpr (fun d _ => by simp)]
  simp [h2]

theorem peelStep_length_lt {g : Graph} (h : leaves g ≠ []) :
    (peelStep g).length < g.length := by
  obtain ⟨l, hl⟩ := List.exists_mem_of_ne_nil _ h
  rcases List.mem_map.mp hl with ⟨p, hp, hfst⟩
  simp only [peelStep, List.length_map]
  apply List.length_filter_lt_length_iff_exists.mpr
  refine ⟨p, (List.mem_filter.mp hp).1, ?_⟩
  simp only [Bool.not_eq_true', Bool.not_eq_false]
  exact decide_eq_true (hfst ▸ hl)

/-! ## Cycle lemmas -/

theorem hasCycle_ne_nil {g : Graph} (hc : hasCycle g) : g ≠ [] := by
  obtain ⟨C, _, hCne, hCedge⟩ := hc
  obtain ⟨v, hv⟩ := List.exists_mem_of_ne_nil _ hCne
  obtain ⟨p, hp, _⟩ := hCedge v hv
  intro hg
  rw [hg] at hp
  cases hp

theorem hasCycle_of_no_leaves {g : Graph} (hne : g ≠ [])
    (hcl : ∀ p ∈ g, ∀ d ∈ p.2, d ∈ keysOf g) (hlv : leaves g = []) : hasCycle g := by
  refine ⟨keysOf g, List.mem_sublists.mpr (List.Sublist.refl _), ?_, ?_⟩
  · simpa [keysOf, List.map_eq_nil] using hne
  · intro v hv
    rcases List.mem_map.mp hv with ⟨p, hp, rfl⟩
    refine ⟨p, hp, rfl, ?_⟩
    have hne2 : p.2 ≠ [] := leaves_eq_nil_iff.mp hlv p hp
    obtain ⟨w, hw⟩ := List.exists_mem_of_ne_nil _ hne2
    exact ⟨w, hcl p hp w hw, hw⟩

theorem depsClosed_peelStep {g : Graph} (h : ∀ p ∈ g, ∀ d ∈ p.2, d ∈ keysOf g) :
    ∀ p ∈ peelStep g, ∀ d ∈ p.2, d ∈ keysOf (peelStep g) := by
  intro p hp d hd
  rcases mem_peelStep_elim hp with ⟨q, hq, hql, rfl⟩
  rw [List.mem_filter] at hd
  rw [keysOf_peelStep, List.mem_filter]
  exact ⟨h q hq d hd.1, hd.2⟩

theorem hasCycle_peelStep {g : Graph} (hnd : (keysOf g).Nodup) (hc : hasCycle g) :
    hasCycle (peelStep g) := by
  obtain ⟨C, hCsub, hCne, hCedge⟩ := hc
  rw [List.mem_sublists] at hCsub
  have hCnotleaf : ∀ v ∈ C, v ∉ leaves g := by
    intro v hv hvleaf
    obtain ⟨p, hp, hfst, w, hwC, hwin⟩ := hCedge v hv
    have hp' : (p.1, p.2) ∈ g := by simpa using hp
    have hempty : p.2 = [] := (mem_leaves_iff hnd hp').mp (hfst ▸ hvleaf)
    rw [hempty] at hwin
    cases hwin
  refine ⟨C, ?_, hCne, ?_⟩
  · rw [List.mem_sublists, keysOf_peelStep]
    have hfC : C.filter (fun k => !decide (k ∈ leaves g)) = C :=
      List.filter_eq_self.mpr (fun a ha => by simp [hCnotleaf a ha])
    rw [← hfC]
    exact hCsub.filter _
  · intro v hv
    obtain ⟨p, hp, hfst, w, hwC, hwin⟩ := hCedge v hv
    have hp' : (p.1, p.2) ∈ g := by simpa using hp
    refine ⟨(p.1, p.2.filter (fun d => !decide (d ∈ leaves g))),
      mem_peelStep_of hp' (hfst ▸ hCnotleaf v hv), hfst, w, hwC, ?_⟩
    rw [List.mem_filter]
    exact ⟨hwin, by simp [hCnotleaf w hwC]⟩

theorem hasCycle_of_peelStep {g : Graph} (hc : hasCycle (peelStep g)) : hasCycle g := by
  obtain ⟨C, hCsub, hCne, hCedge⟩ := hc
  rw [List.mem_sublists] at hCsub
  refine ⟨C, List.mem_sublists.mpr (hCsub.trans (keysOf_peelStep_sublist g)), hCne, ?_⟩
  intro v hv
  obtain ⟨p, hp, hfst, w, hwC, hwin⟩ := hCedge v hv
  rcases mem_peelStep_elim hp with ⟨q, hq, hql, rfl⟩
  rw [List.mem_filter] at hwin
  exact ⟨q, hq, hfst, w, hwC, hwin.1⟩

/-! ## Loop-level lemmas -/

theorem peelLoop_nonempty_of_cycle :
    ∀ (fuel : Nat) {g : Graph}, (keysOf g).Nodup → hasCycle g →
      (peelLoop fuel g).2 ≠ [] := by
  intro fuel
  induction fuel with
  | zero =>
    intro g _ hc
    exact hasCycle_ne_nil hc
  | succ n ih =>
    intro g hnd hc
    have hg : g.isEmpty = false := List.isEmpty_eq_false.mpr (hasCycle_ne_nil hc)
    simp only [peelLoop, hg, Bool.false_eq_true, if_false]
    exact ih (nodup_keysOf_peelStep hnd) (hasCycle_peelStep hnd hc)

theorem exists_stuck_of_cycle_aux :
    ∀ (n : Nat) (g : Graph), g.length ≤ n → (keysOf g).Nodup → hasCycle g →
      ∃ k, iterStep k g ≠ [] ∧ leaves (iterStep k g) = [] ∧
        peelStep (iterStep k g) = iterStep k g := by
  intro n
  induction n with
  | zero =>
    intro g hlen _ hc
    exact absurd (List.eq_nil_of_length_eq_zero (Nat.le_zero.mp hlen)) (hasCycle_ne_nil hc)
  | succ n ih =>
    intro g hlen hnd hc
    by_cases hlv : leaves g = []
    · exact ⟨0, hasCycle_ne_nil hc, hlv, peelStep_of_no_leaves hlv⟩
    · have hlt := peelStep_length_lt hlv
      obtain ⟨k, h1, h2, h3⟩ := ih (peelStep g) (by omega)
        (nodup_keysOf_peelStep hnd) (hasCycle_peelStep hnd hc)
      exact ⟨k + 1, h1, h2, h3⟩

theorem peelLoop_complete :
    ∀ (fuel : Nat) {g : Graph}, g.length ≤ fuel → (keysOf g).Nodup →
      (∀ p ∈ g, ∀ d ∈ p.2, d ∈ keysOf g) → ¬ hasCycle g →
      (peelLoop fuel g).2 = [] := by
  intro fuel
  induction fuel with
  | zero =>
    intro g hlen _ _ _
    exact List.eq_nil_of_length_eq_zero (Nat.le_zero.mp hlen)
  | succ n ih =>
    intro g hlen hnd hcl hnc
    by_cases hg : g.isEmpty
    · simp only [peelLoop, hg, if_true]
      exact List.isEmpty_iff.mp hg
    · have hg' : g.isEmpty = false := by simpa using hg
      have hgne : g ≠ [] := List.isEmpty_eq_false.mp hg'
      have hlv : leaves g ≠ [] := fun h => hnc (hasCycle_of_no_leaves hgne hcl h)
      have hlt := peelStep_length_lt hlv
      simp only [peelLoop, hg', Bool.false_eq_true, if_false]
      exact ih (by omega) (nodup_keysOf_peelStep hnd) (depsClosed_peelStep hcl)
        (fun hc => hnc (hasCycle_of_peelStep hc))

theorem filter_mem_of_sublist_nodup {L M : List Str} (hsub : L.Sublist M)
    (hnd : M.Nodup) : M.filter (fun k => decide (k ∈ L)) = L := by
  induction hsub with
  | slnil => rfl
  | @cons L' M' a h ih =>
    rw [List.filter_cons]
    have ha : a ∉ L' := fun hmem => (List.nodup_cons.mp hnd).1 (h.subset hmem)
    rw [if_neg (by simp [ha])]
    exact ih (List.nodup_cons.mp hnd).2
  | @cons₂ L' M' a h ih =>
    rw [List.filter_cons, if_pos (by simp)]
    have haM : a ∉ M' := (List.nodup_cons.mp hnd).1
    have hcong : M'.filter (fun k => decide (k ∈ a :: L')) =
        M'.filter (fun k => decide (k ∈ L')) := by
      apply List.filter_congr
      intro x hx
      have hxa : x ≠ a := fun hxa => haM (hxa ▸ hx)
      simp [List.mem_cons, hxa]
    rw [hcong, ih (List.nodup_cons.mp hnd).2]

theorem leaves_sublist_keysOf (g : Graph) : (leaves g).Sublist (keysOf g) :=
  (List.filter_sublist g).map Prod.fst

theorem leaves_append_keys_peelStep_perm {g : Graph} (hnd : (keysOf g).Nodup) :
    (leaves g ++ keysOf (peelStep g)).Perm (keysOf g) := by
  rw [keysOf_peelStep]
  have hfl : (keysOf g).filter (fun k => decide (k ∈ leaves g)) = leaves g :=
    filter_mem_of_sublist_nodup (leaves_sublist_keysOf g) hnd
  have hperm := List.filter_append_perm (fun k => decide (k ∈ leaves g)) (keysOf g)
  rw [hfl] at hperm
  exact hperm

theorem peelLoop_perm :
    ∀ (fuel : Nat) {g : Graph}, (keysOf g).Nodup → (peelLoop fuel g).2 = [] →
      ((peelLoop fuel g).1).Perm (keysOf g) := by
  intro fuel
  induction fuel with
  | zero =>
    intro g _ h2
    have : g = [] := h2
    subst this
    exact List.Perm.refl _
  | succ n ih =>
    intro g hnd h2
    by_cases hg : g.isEmpty
    · have : g = [] := List.isEmpty_iff.mp hg
      subst this
      exact List.Perm.refl _
    · have hg' : g.isEmpty = false := by simpa using hg
      simp only [peelLoop, hg', Bool.false_eq_true, if_false] at h2 ⊢
      exact ((ih (nodup_keysOf_peelStep hnd) h2).append_left (leaves g)).trans
        (leaves_append_keys_peelStep_perm hnd)

theorem peelLoop_order :
    ∀ (fuel : Nat) {g : Graph}, (keysOf g).Nodup →
      ∀ {a b : Str} {ds : List Str}, (a, ds) ∈ g → b ∈ ds →
        a ∈ (peelLoop fuel g).1 →
        ∃ l₁ l₂, (peelLoop fuel g).1 = l₁ ++ a :: l₂ ∧ b ∈ l₁ := by
  intro fuel
  induction fuel with
  | zero =>
    intro g _ a b ds _ _ ha
    cases ha
  | succ n ih =>
    intro g hnd a b ds hmem hb ha
    by_cases hg : g.isEmpty
    · rw [List.isEmpty_iff.mp hg] at hmem
      cases hmem
    · have hg' : g.isEmpty = false := by simpa using hg
      simp only [peelLoop, hg', Bool.false_eq_true, if_false] at ha ⊢
      have haL : a ∉ leaves g := by
        intro hal
        rw [(mem_leaves_iff hnd hmem).mp hal] at hb
        cases hb
      rcases List.mem_append.mp ha with haL' | harec
      · exact absurd haL' haL
      · by_cases hbL : b ∈ leaves g
        · obtain ⟨r₁, r₂, hr⟩ := List.append_of_mem harec
          refine ⟨leaves g ++ r₁, r₂, ?_, List.mem_append.mpr (Or.inl hbL)⟩
          rw [hr, List.append_assoc]
        · have hmem' := mem_peelStep_of hmem haL
          have hb' : b ∈ ds.filter (fun d => !decide (d ∈ leaves g)) :=
            List.mem_filter.mpr ⟨hb, by simp [hbL]⟩
          obtain ⟨r₁, r₂, heq, hbr⟩ := ih (nodup_keysOf_peelStep hnd) hmem' hb' harec
          refine ⟨leaves g ++ r₁, r₂, ?_, List.mem_append.mpr (Or.inr hbr)⟩
          rw [heq, List.append_assoc]

/-! ## Structural facts about the built graph -/

theorem buildGraphAux_nodup {nodes : List Str} :
    ∀ {rest g0 nm0 g nm}, buildGraphAux nodes rest g0 nm0 = some (g, nm) →
      (keysOf g0).Nodup → (keysOf nm0).Nodup →
      (keysOf g).Nodup ∧ (keysOf nm).Nodup := by
  intro rest
  induction rest with
  | nil =>
    intro g0 nm0 g nm h h1 h2
    simp only [buildGraphAux] at h
    rcases h with ⟨rfl, rfl⟩
    exact ⟨h1, h2⟩
  | cons e rest' ih =>
    intro g0 nm0 g nm h h1 h2
    rcases e with ⟨node, deps⟩
    simp only [buildGraphAux] at h
    cases hk : nodeKeyName node with
    | none => rw [hk] at h; cases h
    | some node_name =>
      cases hdm : mapMOpt get_model_name_from_filename deps with
      | none => rw [hk, hdm] at h; cases h
      | some dep_names =>
        rw [hk, hdm] at h
        exact ih h (nodup_keysOf_dinsert h1) (nodup_keysOf_dinsert h2)

theorem mem_keysOf_dinsert_self {β : Type} {k : Str} {v : β} {l : List (Str × β)} :
    k ∈ keysOf (dinsert k v l) := by
  rw [keysOf_dinsert]
  by_cases h : k ∈ keysOf l
  · rwa [if_pos h]
  · rw [if_neg h]
    exact List.mem_append.mpr (Or.inr (List.mem_singleton.mpr rfl))

theorem mem_keysOf_dinsert_of_mem {β : Type} {k k' : Str} {v : β} {l : List (Str × β)}
    (h : k' ∈ keysOf l) : k' ∈ keysOf (dinsert k v l) := by
  rw [keysOf_dinsert]
  by_cases hm : k ∈ keysOf l
  · rwa [if_pos hm]
  · rw [if_neg hm]
    exact List.mem_append.mpr (Or.inl h)

theorem buildGraphAux_keys_monotone {nodes : List Str} :
    ∀ {rest g0 nm0 g nm}, buildGraphAux nodes rest g0 nm0 = some (g, nm) →
      ∀ k ∈ keysOf g0, k ∈ keysOf g := by
  intro rest
  induction rest with
  | nil =>
    intro g0 nm0 g nm h k hk
    simp only [buildGraphAux] at h
    rcases h with ⟨rfl, rfl⟩
    exact hk
  | cons e rest' ih =>
    intro g0 nm0 g nm h k hk
    rcases e with ⟨node, deps⟩
    simp only [buildGraphAux] at h
    cases hkk : nodeKeyName node with
    | none => rw [hkk] at h; cases h
    | some node_name =>
      cases hdm : mapMOpt get_model_name_from_filename deps with
      | none => rw [hkk, hdm] at h; cases h
      | some dep_names =>
        rw [hkk, hdm] at h
        exact ih h k (mem_keysOf_dinsert_of_mem hk)

theorem buildGraphAux_keys_complete {nodes : List Str} :
    ∀ {rest g0 nm0 g nm}, buildGraphAux nodes rest g0 nm0 = some (g, nm) →
      ∀ p ∈ rest, ∀ nn, nodeKeyName p.1 = some nn → nn ∈ keysOf g := by
  intro rest
  induction rest with
  | nil =>
    intro g0 nm0 g nm h p hp
    cases hp
  | cons e rest' ih =>
    intro g0 nm0 g nm h p hp nn hnn
    rcases e with ⟨node, deps⟩
    simp only [buildGraphAux] at h
    cases hkk : nodeKeyName node with
    | none => rw [hkk] at h; cases h
    | some node_name =>
      cases hdm : mapMOpt get_model_name_from_filename deps with
      | none => rw [hkk, hdm] at h; cases h
      | some dep_names =>
        rw [hkk, hdm] at h
        rcases List.mem_cons.mp hp with rfl | hp'
        · have : node_name = nn := by
            rw [hkk] at hnn
            exact Option.some_inj.mp hnn
          subst this
          exact buildGraphAux_keys_monotone h node_name mem_keysOf_dinsert_self
        · exact ih h p hp' nn hnn

/-- Every dependency recorded in the filtered graph is itself a key of the
graph (deps-closedness), since the filter keeps only tracked names and every
tracked name becomes a key. -/
theorem buildGraph_depsClosed {deps : List (Str × List Str)} {g : List (Str × List Str)}
    {nm : List (Str × Str)} (h : buildGraph deps = some (g, nm)) :
    ∀ p ∈ g, ∀ d ∈ p.2, d ∈ keysOf g := by
  unfold buildGraph at h
  cases hn : mapMOpt (fun p => nodeKeyName p.1) deps with
  | none => rw [hn] at h; cases h
  | some nodes =>
    rw [hn] at h
    have hsub : ∀ p ∈ g, ∀ d ∈ p.2, d ∈ nodes := by
      refine buildGraphAux_invariant (fun p => ∀ d ∈ p.2, d ∈ nodes) ?_ h
        (fun p hp => absurd hp (List.not_mem_nil p))
      intro node_name dep_names d hd
      have := List.of_mem_filter hd
      simp only [Bool.and_eq_true, decide_eq_true_eq] at this
      exact this.1
    intro p hp d hd
    rcases mapMOpt_mem_rev hn (hsub p hp d hd) with ⟨q, hq, hqk⟩
    exact buildGraphAux_keys_complete h q hq d hqk

theorem buildGraph_nodup {deps : List (Str × List Str)} {g : List (Str × List Str)}
    {nm : List (Str × Str)} (h : buildGraph deps = some (g, nm)) :
    (keysOf g).Nodup ∧ (keysOf nm).Nodup := by
  unfold buildGraph at h
  cases hn : mapMOpt (fun p => nodeKeyName p.1) deps with
  | none => rw [hn] at h; cases h
  | some nodes =>
    rw [hn] at h
    exact buildGraphAux_nodup h List.nodup_nil List.nodup_nil

/-! ## C3: termination behaviour of the peel loop -/

/-- C3: on the filtered graph built by `topological_sort`, the peel loop run
with fuel equal to the node count terminates with an empty graph and emits
every node exactly when the graph is acyclic; when the graph has a cycle the
remaining graph is nonempty for every amount of fuel, and some iteration is
reached that is nonempty, has no leaves, and is a fixed point of the peel
step — the Python `while` loop never terminates. -/
theorem c3_peel_termination (deps : List (Str × List Str))
    (g : List (Str × List Str)) (nm : List (Str × Str))
    (h : buildGraph deps = some (g, nm)) :
    (¬ hasCycle g → (peelLoop g.length g).2 = [] ∧
      ((peelLoop g.length g).1).Perm (keysOf g)) ∧
    (hasCycle g → (∀ fuel, (peelLoop fuel g).2 ≠ []) ∧
      ∃ k, iterStep k g ≠ [] ∧ leaves (iterStep k g) = [] ∧
        peelStep (iterStep k g) = iterStep k g) := by
  have hnd := (buildGraph_nodup h).1
  have hcl := buildGraph_depsClosed h
  constructor
  · intro hnc
    have hdone := peelLoop_complete g.length (Nat.le_refl _) hnd hcl hnc
    exact ⟨hdone, peelLoop_perm g.length hnd hdone⟩
  · intro hc
    exact ⟨fun fuel => peelLoop_nonempty_of_cycle fuel hnd hc,
      exists_stuck_of_cycle_aux g.length g (Nat.le_refl _) hnd hc⟩

theorem c3_witness :
    (¬ hasCycle [("llama".toList, []), ("bert".toList, ["llama".toList])] →
      (peelLoop 2 [("llama".toList, []), ("bert".toList, ["llama".toList])]).2 = [] ∧
      ((peelLoop 2 [("llama".toList, []), ("bert".toList, ["llama".toList])]).1).Perm
        (keysOf [("llama".toList, []), ("bert".toList, ["llama".toList])])) ∧
    (hasCycle [("llama".toList, []), ("bert".toList, ["llama".toList])] →
      (∀ fuel, (peelLoop fuel
        [("llama".toList, []), ("bert".toList, ["llama".toList])]).2 ≠ []) ∧
      ∃ k, iterStep k [("llama".toList, []), ("bert".toList, ["llama".toList])] ≠ [] ∧
        leaves (iterStep k [("llama".toList, []), ("bert".toList, ["llama".toList])]) = [] ∧
        peelStep (iterStep k [("llama".toList, []), ("bert".toList, ["llama".toList])]) =
          iterStep k [("llama".toList, []), ("bert".toList, ["llama".toList])]) :=
  c3_peel_termination
    [("modular_llama.py".toList, ["x.modeling_mistral".toList]),
     ("modular_bert.py".toList, ["y.modeling_llama".toList])]
    [("llama".toList, []), ("bert".toList, ["llama".toList])]
    [("llama".toList, "modular_llama.py".toList),
     ("bert".toList, "modular_bert.py".toList)]
    (by decide)

/-! ## C1: the produced order respects every recorded edge -/

theorem topological_sort_eq {deps : List (Str × List Str)} {g : List (Str × List Str)}
    {nm : List (Str × Str)} (h : buildGraph deps = some (g, nm)) :
    topological_sort deps =
      (if ((peelLoop g.length g).2).isEmpty
       then mapMOpt (fun x => alookup x nm) (peelLoop g.length g).1 else none) := by
  unfold topological_sort
  rw [h]

/-- C1: whenever `find_priority_list` returns an ordered list (exactly the
cycle-free case, by C3) and `(a, ds)` is an entry of the filtered graph with
`b ∈ ds` (a recorded edge "a depends on b"), the file of `b` occurs strictly
before the file of `a` in the returned order. -/
theorem c1_topological_order (parse : Str → List PyStmt) (py_files : List Str)
    (ordered : List Str) (dm : List (Str × List Str))
    (g : List (Str × List Str)) (nm : List (Str × Str))
    (a b : Str) (ds : List Str) (fa fb : Str)
    (hfind : find_priority_list parse py_files = some (ordered, dm))
    (hbuild : buildGraph dm = some (g, nm))
    (hedge : (a, ds) ∈ g) (hb : b ∈ ds)
    (hfa : alookup a nm = some fa) (hfb : alookup b nm = some fb) :
    ∃ l₁ l₂, ordered = l₁ ++ fa :: l₂ ∧ fb ∈ l₁ := by
  simp only [find_priority_list] at hfind
  cases ht : topological_sort (map_dependencies parse py_files) with
  | none => rw [ht] at hfind; cases hfind
  | some o =>
    rw [ht] at hfind
    have hpair := Option.some_inj.mp hfind
    injection hpair with h1 h2
    subst h1
    subst h2
    rw [topological_sort_eq hbuild] at ht
    by_cases hrest : ((peelLoop g.length g).2).isEmpty
    · rw [if_pos hrest] at ht
      have hnd := (buildGraph_nodup hbuild).1
      have hdone : (peelLoop g.length g).2 = [] := List.isEmpty_iff.mp hrest
      have hperm := peelLoop_perm g.length hnd hdone
      have ha_keys : a ∈ keysOf g := List.mem_map.mpr ⟨(a, ds), hedge, rfl⟩
      have ha_sorted : a ∈ (peelLoop g.length g).1 := hperm.mem_iff.mpr ha_keys
      obtain ⟨s₁, s₂, hs, hbs⟩ := peelLoop_order g.length hnd hedge hb ha_sorted
      rw [hs] at ht
      rcases mapMOpt_append.mp ht with ⟨r₁, r₂', h1, h2, rfl⟩
      rcases mapMOpt_cons_some.mp h2 with ⟨y, r₂, hy, h3, rfl⟩
      rw [hfa] at hy
      obtain rfl : fa = y := Option.some_inj.mp hy
      refine ⟨r₁, r₂, rfl, ?_⟩
      exact mapMOpt_mem_some h1 hbs hfb
    · rw [if_neg hrest] at ht
      cases ht

theorem c1_witness :
    ∃ l₁ l₂, ["modular_llama.py".toList, "modular_bert.py".toList] =
      l₁ ++ "modular_bert.py".toList :: l₂ ∧ "modular_llama.py".toList ∈ l₁ :=
  c1_topological_order parseEx ["modular_llama.py".toList, "modular_bert.py".toList]
    ["modular_llama.py".toList, "modular_bert.py".toList]
    [("modular_llama.py".toList, ["x.modeling_mistral".toList]),
     ("modular_bert.py".toList, ["y.modeling_llama".toList])]
    [("llama".toList, []), ("bert".toList, ["llama".toList])]
    [("llama".toList, "modular_llama.py".toList),
     ("bert".toList, "modular_bert.py".toList)]
    "bert".toList "llama".toList ["llama".toList] "modular_bert.py".toList
    "modular_llama.py".toList
    (by decide) (by decide) (by decide) (by decide) (by decide) (by decide)

/-! ## C2: keys of the dependency map and structure of the built maps -/

theorem keysOf_addDep {f m : Str} {acc : List (Str × List Str)} :
    keysOf (addDep f m acc) =
      if f ∈ keysOf acc then keysOf acc else keysOf acc ++ [f] := by
  induction acc with
  | nil =>
    rw [keysOf_nil, if_neg (List.not_mem_nil f)]
    rfl
  | cons q rest ih =>
    rcases q with ⟨f', ms⟩
    by_cases hf : f = f'
    · subst hf
      simp only [addDep, eq_self_iff_true, if_true, keysOf_cons]
      rw [if_pos (List.mem_cons_self f _)]
    · simp only [addDep, if_neg hf, keysOf_cons, ih]
      by_cases hmem : f ∈ keysOf rest
      · rw [if_pos hmem, if_pos (List.mem_cons.mpr (Or.inr hmem))]
      · rw [if_neg hmem, if_neg (by simp [List.mem_cons, hf, hmem]), List.cons_append]

theorem keysOf_foldl_addDep_mem {f : Str} {ms : List Str} :
    ∀ {acc : List (Str × List Str)}, f ∈ keysOf acc →
      keysOf (ms.foldl (fun a m => addDep f m a) acc) = keysOf acc := by
  induction ms with
  | nil => intro acc _; rfl
  | cons m ms' ih =>
    intro acc hf
    rw [List.foldl_cons]
    have hstep : keysOf (addDep f m acc) = keysOf acc := by
      rw [keysOf_addDep, if_pos hf]
    rw [ih (by rw [hstep]; exact hf), hstep]

theorem keysOf_mapDepStep_fresh {parse : Str → List PyStmt} {f : Str}
    {acc : List (Str × List Str)} (hne : extract_classes_and_imports (parse f) ≠ [])
    (hf : f ∉ keysOf acc) :
    keysOf (mapDepStep parse acc f) = keysOf acc ++ [f] := by
  unfold mapDepStep
  cases hext : extract_classes_and_imports (parse f) with
  | nil => exact absurd hext hne
  | cons m ms =>
    rw [List.foldl_cons]
    have hstep : keysOf (addDep f m acc) = keysOf acc ++ [f] := by
      rw [keysOf_addDep, if_neg hf]
    rw [keysOf_foldl_addDep_mem, hstep]
    rw [hstep]
    exact List.mem_append.mpr (Or.inr (List.mem_singleton.mpr rfl))

theorem keysOf_map_dependencies_aux {parse : Str → List PyStmt} :
    ∀ (files : List Str) (acc : List (Str × List Str)),
      (∀ f ∈ files, extract_classes_and_imports (parse f) ≠ []) →
      (∀ f ∈ files, f ∉ keysOf acc) → files.Nodup →
      keysOf (files.foldl (mapDepStep parse) acc) = keysOf acc ++ files := by
  intro files
  induction files with
  | nil => intro acc _ _ _; simp
  | cons f files' ih =>
    intro acc hext hfresh hnd
    rw [List.foldl_cons]
    have hstep : keysOf (mapDepStep parse acc f) = keysOf acc ++ [f] :=
      keysOf_mapDepStep_fresh (hext f (List.mem_cons_self _ _))
        (hfresh f (List.mem_cons_self _ _))
    have hrec := ih (mapDepStep parse acc f)
      (fun x hx => hext x (List.mem_cons_of_mem _ hx))
      (fun x hx => by
        rw [hstep, List.mem_append, List.mem_singleton]
        rintro (hxa | rfl)
        · exact hfresh x (List.mem_cons_of_mem _ hx) hxa
        · exact (List.nodup_cons.mp hnd).1 hx)
      (List.nodup_cons.mp hnd).2
    rw [hrec, hstep, List.append_assoc]
    rfl

theorem keysOf_map_dependencies {parse : Str → List PyStmt} {py_files : List Str}
    (hext : ∀ f ∈ py_files, extract_classes_and_imports (parse f) ≠ [])
    (hnd : py_files.Nodup) :
    keysOf (map_dependencies parse py_files) = py_files := by
  unfold map_dependencies
  rw [keysOf_map_dependencies_aux py_files [] hext (fun f _ => List.not_mem_nil f) hnd]
  rfl

theorem mapMOpt_fst {β γ : Type} (f : Str → Option γ) (l : List (Str × β)) :
    mapMOpt (fun p => f p.1) l = mapMOpt f (keysOf l) := by
  induction l with
  | nil => rfl
  | cons p rest ih =>
    rw [keysOf_cons]
    simp only [mapMOpt, ih]

theorem nodup_of_mapMOpt_nodup {α β : Type} {f : α → Option β} {l : List α}
    {r : List β} (h : mapMOpt f l = some r) (hnd : r.Nodup) : l.Nodup := by
  induction l generalizing r with
  | nil => exact List.nodup_nil
  | cons a l' ih =>
    rcases mapMOpt_cons_some.mp h with ⟨b, r', hb, hrest, rfl⟩
    rw [List.nodup_cons] at hnd ⊢
    refine ⟨fun hmem => hnd.1 (mapMOpt_mem_some hrest hmem hb), ih hrest hnd.2⟩

theorem mapMOpt_perm {α β : Type} {f : α → Option β} {l l' : List α}
    (hp : l.Perm l') :
    ∀ {r : List β}, mapMOpt f l = some r →
      ∃ r', mapMOpt f l' = some r' ∧ r.Perm r' := by
  induction hp with
  | nil =>
    intro r h
    exact ⟨r, h, List.Perm.refl _⟩
  | cons x hp ih =>
    intro r h
    rcases mapMOpt_cons_some.mp h with ⟨b, rt, hb, ht, rfl⟩
    rcases ih ht with ⟨rt', ht', hperm⟩
    exact ⟨b :: rt', mapMOpt_cons_some.mpr ⟨b, rt', hb, ht', rfl⟩, hperm.cons b⟩
  | swap x y l =>
    intro r h
    rcases mapMOpt_cons_some.mp h with ⟨b1, r1, hb1, h1, rfl⟩
    rcases mapMOpt_cons_some.mp h1 with ⟨b2, r2, hb2, h2, rfl⟩
    refine ⟨b2 :: b1 :: r2, mapMOpt_cons_some.mpr
      ⟨b2, b1 :: r2, hb2, mapMOpt_cons_some.mpr ⟨b1, r2, hb1, h2, rfl⟩, rfl⟩, ?_⟩
    exact List.Perm.swap b2 b1 r2
  | trans h1 h2 ih1 ih2 =>
    intro r h
    rcases ih1 h with ⟨r1, hr1, hp1⟩
    rcases ih2 hr1 with ⟨r2, hr2, hp2⟩
    exact ⟨r2, hr2, hp1.trans hp2⟩

/-- Structure of the two maps built by `buildGraphAux` when the node names
are duplicate-free and fresh: graph keys extend in order, and looking the
names up in the name mapping recovers the original file keys. -/
theorem buildGraphAux_struct {nodes : List Str} :
    ∀ {rest : List (Str × List Str)} {g0 : List (Str × List Str)}
      {nm0 : List (Str × Str)} {g : List (Str × List Str)} {nm : List (Str × Str)}
      {ns : List Str},
      mapMOpt (fun p => nodeKeyName p.1) rest = some ns →
      ns.Nodup →
      (∀ n ∈ ns, n ∉ keysOf g0) →
      (∀ n ∈ ns, n ∉ keysOf nm0) →
      buildGraphAux nodes rest g0 nm0 = some (g, nm) →
      keysOf g = keysOf g0 ++ ns ∧
      mapMOpt (fun n => alookup n nm) ns = some (rest.map Prod.fst) ∧
      (∀ n v, n ∉ ns → alookup n nm0 = some v → alookup n nm = some v) := by
  intro rest
  induction rest with
  | nil =>
    intro g0 nm0 g nm ns hns hnd hg0 hnm0 h
    have hns' : ns = [] := by
      simp only [mapMOpt] at hns
      exact (Option.some_inj.mp hns).symm
    subst hns'
    simp only [buildGraphAux] at h
    rcases h with ⟨rfl, rfl⟩
    exact ⟨by simp, rfl, fun n v _ hv => hv⟩
  | cons e rest' ih =>
    intro g0 nm0 g nm ns hns hnd hg0 hnm0 h
    rcases e with ⟨node, deps⟩
    rcases mapMOpt_cons_some.mp hns with ⟨nn, ns', hnn, hns', rfl⟩
    have hnn' : nodeKeyName node = some nn := hnn
    simp only [buildGraphAux] at h
    rw [hnn'] at h
    cases hdm : mapMOpt get_model_name_from_filename deps with
    | none => rw [hdm] at h; cases h
    | some dep_names =>
      rw [hdm] at h
      have hnnfresh_g : nn ∉ keysOf g0 := hg0 nn (List.mem_cons_self _ _)
      have hnnfresh_nm : nn ∉ keysOf nm0 := hnm0 nn (List.mem_cons_self _ _)
      have hkg1 : keysOf (dinsert nn
          (dep_names.filter (fun d => decide (d ∈ nodes) && decide (d ≠ nn))) g0) =
          keysOf g0 ++ [nn] := by
        rw [keysOf_dinsert, if_neg hnnfresh_g]
      have hknm1 : keysOf (dinsert nn node nm0) = keysOf nm0 ++ [nn] := by
        rw [keysOf_dinsert, if_neg hnnfresh_nm]
      have hnn_notin : nn ∉ ns' := (List.nodup_cons.mp hnd).1
      have hndtail := (List.nodup_cons.mp hnd).2
      obtain ⟨hk, hmap, hpers⟩ := ih hns' hndtail
        (fun n hn => by
          rw [hkg1, List.mem_append, List.mem_singleton]
          rintro (h1 | rfl)
          · exact hg0 n (List.mem_cons_of_mem _ hn) h1
          · exact hnn_notin hn)
        (fun n hn => by
          rw [hknm1, List.mem_append, List.mem_singleton]
          rintro (h1 | rfl)
          · exact hnm0 n (List.mem_cons_of_mem _ hn) h1
          · exact hnn_notin hn)
        h
      refine ⟨?_, ?_, ?_⟩
      · rw [hk, hkg1, List.append_assoc]
        rfl
      · apply mapMOpt_cons_some.mpr
        refine ⟨node, rest'.map Prod.fst, ?_, hmap, rfl⟩
        have hstep : alookup nn (dinsert nn node nm0) = some node := by
          rw [alookup_dinsert, if_pos rfl]
        exact hpers nn node hnn_notin hstep
      · intro n v hn hv
        rw [List.mem_cons, not_or] at hn
        apply hpers n v hn.2
        rw [alookup_dinsert, if_neg hn.1]
        exact hv

/-- C2 counterexample: a modular file with no qualifying imports never becomes
a key of the dependency defaultdict, so it is dropped from the output — the
returned order is empty and is not a permutation of the input list. -/
theorem c2_counterexample :
    find_priority_list (fun _ => []) ["modular_a.py".toList] = some ([], []) ∧
    ¬ (([] : List Str).Perm ["modular_a.py".toList]) := by
  refine ⟨by decide, ?_⟩
  intro h
  exact absurd (h.mem_iff.mpr (List.mem_cons_self _ _)) (List.not_mem_nil _)

/-- C2 (amended): when every input file has at least one qualifying import
and the canonical node names of the input files are pairwise distinct, the
ordered list returned by `find_priority_list` is a permutation of the input
file list. -/
theorem c2_output_permutation (parse : Str → List PyStmt) (py_files : List Str)
    (names : List Str) (ordered : List Str) (dm : List (Str × List Str))
    (hnames : mapMOpt nodeKeyName py_files = some names)
    (hnd : names.Nodup)
    (hext : ∀ f ∈ py_files, extract_classes_and_imports (parse f) ≠ [])
    (hfind : find_priority_list parse py_files = some (ordered, dm)) :
    ordered.Perm py_files := by
  have hfiles_nd : py_files.Nodup := nodup_of_mapMOpt_nodup hnames hnd
  have hkeys : keysOf (map_dependencies parse py_files) = py_files :=
    keysOf_map_dependencies hext hfiles_nd
  have hnodes : mapMOpt (fun p => nodeKeyName p.1) (map_dependencies parse py_files) =
      some names := by
    rw [mapMOpt_fst nodeKeyName, hkeys]
    exact hnames
  simp only [find_priority_list] at hfind
  cases ht : topological_sort (map_dependencies parse py_files) with
  | none => rw [ht] at hfind; cases hfind
  | some o =>
    rw [ht] at hfind
    have hpair := Option.some_inj.mp hfind
    injection hpair with h1 h2
    subst h1
    subst h2
    cases hb : buildGraph (map_dependencies parse py_files) with
    | none =>
      unfold topological_sort at ht
      rw [hb] at ht
      cases ht
    | some gnm =>
      rcases gnm with ⟨g, nm⟩
      rw [topological_sort_eq hb] at ht
      by_cases hrest : ((peelLoop g.length g).2).isEmpty
      · rw [if_pos hrest] at ht
        have hbx := hb
        unfold buildGraph at hbx
        rw [hnodes] at hbx
        obtain ⟨hkg, hmapnm, _⟩ := buildGraphAux_struct hnodes hnd
          (fun n _ => show n ∉ keysOf ([] : List (Str × List Str)) by
            rw [keysOf_nil]; exact List.not_mem_nil n)
          (fun n _ => show n ∉ keysOf ([] : List (Str × Str)) by
            rw [keysOf_nil]; exact List.not_mem_nil n) hbx
        have hkg' : keysOf g = names := by simpa using hkg
        have hfiles : (map_dependencies parse py_files).map Prod.fst = py_files := by
          simpa [keysOf] using hkeys
        rw [hfiles] at hmapnm
        have hnd_g : (keysOf g).Nodup := (buildGraph_nodup hb).1
        have hdone : (peelLoop g.length g).2 = [] := List.isEmpty_iff.mp hrest
        have hperm : ((peelLoop g.length g).1).Perm names := by
          have hperm0 := peelLoop_perm g.length hnd_g hdone
          rwa [hkg'] at hperm0
        obtain ⟨r', hr', hpr⟩ := mapMOpt_perm hperm ht
        rw [hmapnm] at hr'
        obtain rfl : py_files = r' := Option.some_inj.mp hr'
        exact hpr
      · rw [if_neg hrest] at ht
        cases ht

theorem c2_witness :
    (["modular_llama.py".toList, "modular_bert.py".toList] : List Str).Perm
      ["modular_llama.py".toList, "modular_bert.py".toList] :=
  c2_output_permutation parseEx
    ["modular_llama.py".toList, "modular_bert.py".toList]
    ["llama".toList, "bert".toList]
    ["modular_llama.py".toList, "modular_bert.py".toList]
    [("modular_llama.py".toList, ["x.modeling_mistral".toList]),
     ("modular_bert.py".toList, ["y.modeling_llama".toList])]
    (by decide) (by decide) (by decide) (by decide)
